import Mathlib

/-
Shallow embedding of `src/simplified_smm.c` (a simulated first-fit heap
allocator over a fixed 8000-byte arena with 9-byte packed block headers).

Modelling conventions, in correspondence with the C source:

* Addresses are natural numbers.  `hs` stands for `heap_start` (the base
  address returned by `mmap`); `heap_end = hs + HEAP_SIZE`;
  `heap_current_break = hs + brk` where `brk : Nat` is the break offset.
  `heap_current_break` starts at `heap_start` and is moved only by
  `mm_sbrk`, which keeps it inside `[heap_start, heap_end]`, so a `Nat`
  offset is faithful.
* The block list living between `heap_start` and the break is implicit in
  the C (headers chained by `cur += meta_data_size + md->size`).  We model
  the sequence of headers as a `List MetaData` in ascending address order;
  the address of header `i` is `hs +` the sum of `meta_data_size + size`
  over the headers before it.  The C loops are bounded by
  `cur < heap_current_break`; on every state the engine actually runs on,
  the traversal from `heap_start` lands exactly on the break
  (the contiguity invariant, proved below for all reachable states), so
  the address-bounded loop visits exactly the list elements.
* Pointer arithmetic on in-arena pointers is exact in C (no wrap), so it
  is modelled with plain `Nat` arithmetic.  The single place where a
  computation can wrap is `MAP_FAILED + meta_data_size`
  (`(void*)-1 + 9`), which is taken modulo `2^64` explicitly.
* `mm_sbrk` returns `MAP_FAILED` on failure; this is modelled as `none`,
  a successful return of address `a` as `some a`.
-/

def HEAP_SIZE : Nat := 8000

/-- Size in bytes of the packed `struct MetaData { size_t size; char status; }`. -/
def meta_data_size : Nat := 9

def META_DATA_STATUS_FREE : Char := 'f'

def META_DATA_STATUS_OCCUPIED : Char := 'o'

/-- Word size of the 64-bit platform: pointer arithmetic wraps modulo this. -/
def UINT64 : Nat := 2 ^ 64

/-- Block header: `size` is the payload length in bytes, `status` is `'f'` or `'o'`. -/
structure MetaData where
  size : Nat
  status : Char
deriving DecidableEq

/-- Free block of payload size `n` (notation helper for concrete states). -/
def fblk (n : Nat) : MetaData := ⟨n, META_DATA_STATUS_FREE⟩

/-- Occupied block of payload size `n` (notation helper for concrete states). -/
def oblk (n : Nat) : MetaData := ⟨n, META_DATA_STATUS_OCCUPIED⟩

/-- Engine state: the header sequence (ascending address order) between
`heap_start` and the break, and the break offset `brk`
(`heap_current_break = heap_start + brk`). -/
structure Heap where
  blocks : List MetaData
  brk : Nat
deriving DecidableEq

/-- Total number of bytes the block list occupies:
each block contributes `meta_data_size + size`. -/
def sumLen (bs : List MetaData) : Nat :=
  (bs.map (fun b => meta_data_size + b.size)).sum

/-- Address of the `i`-th block header (`hs` = `heap_start`). -/
def headerAddr (hs : Nat) (bs : List MetaData) (i : Nat) : Nat :=
  hs + sumLen (bs.take i)

/-- Translation of `mm_sbrk` (src/simplified_smm.c:40-61).
`init` is `heap_start != NULL && heap_end != NULL && heap_current_break != NULL`.
Returns the new break offset together with the C return value:
`some a` for a returned address, `none` for `MAP_FAILED`. -/
def mm_sbrk (hs : Nat) (init : Bool) (brk : Nat) (sz : Int) : Nat × Option Nat :=
  if init = false then (brk, none)
  else if sz = 0 then (brk, some (hs + brk))
  else if 0 < sz ∧ (brk : Int) + sz ≤ (HEAP_SIZE : Int) then
    (((brk : Int) + sz).toNat, some (hs + brk))
  else if sz < 0 ∧ 0 ≤ (brk : Int) + sz then
    (((brk : Int) + sz).toNat, some (hs + brk))
  else (brk, none)

/-- Translation of `enoughToSplit` (src/simplified_smm.c:124-131):
`md->size > size + meta_data_size`. -/
def enoughToSplit (md : MetaData) (size : Nat) : Bool :=
  decide (size + meta_data_size < md.size)

/-- Result of the first-fit scan loop of `mm_malloc`
(src/simplified_smm.c:137-157): either a fit was found (the updated block
list and the returned payload address), or no fit was found and
`lastBlock` is `none` (empty list, `lastBlock == NULL` in the C) or
`some (address, header)` of the final block. -/
inductive ScanResult where
  | found (blocks : List MetaData) (payload : Nat)
  | notFound (lastBlock : Option (Nat × MetaData))
deriving DecidableEq

/-- The first-fit scan loop of `mm_malloc` (src/simplified_smm.c:137-157).
`cur` is the address of the current header.  On the first block with
`status == FREE && size >= requested`, split if `enoughToSplit`, mark it
occupied and return its payload address `cur + meta_data_size`. -/
def mallocScan (size : Nat) : List MetaData → Nat → ScanResult
  | [], _ => .notFound none
  | md :: rest, cur =>
    if md.status = META_DATA_STATUS_FREE ∧ size ≤ md.size then
      if enoughToSplit md size then
        .found (⟨size, META_DATA_STATUS_OCCUPIED⟩ ::
                ⟨md.size - size - meta_data_size, META_DATA_STATUS_FREE⟩ :: rest)
               (cur + meta_data_size)
      else
        .found (⟨md.size, META_DATA_STATUS_OCCUPIED⟩ :: rest) (cur + meta_data_size)
    else
      match mallocScan size rest (cur + meta_data_size + md.size) with
      | .found bs2 a => .found (md :: bs2) a
      | .notFound none => .notFound (some (cur, md))
      | .notFound (some last) => .notFound (some last)

/-- The `lastBlock == NULL || lastBlockMetaData->status == OCCUPIED` branch of
`mm_malloc` (src/simplified_smm.c:161-169): grow by `size + meta_data_size`
and write a fresh header at the address `mm_sbrk` returned.  The C does NOT
test that return value: on success the header lands at the old break (a new
last block); on failure the header is written through `MAP_FAILED`
(`(void*)-1`), outside the arena, so the in-arena block list is unchanged,
and the returned "payload" is `MAP_FAILED + meta_data_size` wrapped mod
`2^64`. -/
def mallocGrowNew (hs : Nat) (h : Heap) (size : Nat) : Heap × Nat :=
  match mm_sbrk hs true h.brk ((size : Int) + (meta_data_size : Int)) with
  | (brk2, some start) =>
    (⟨h.blocks ++ [⟨size, META_DATA_STATUS_OCCUPIED⟩], brk2⟩, start + meta_data_size)
  | (brk2, none) =>
    (⟨h.blocks, brk2⟩, (UINT64 - 1 + meta_data_size) % UINT64)

/-- Translation of `mm_malloc` (src/simplified_smm.c:133-180).
Returns the new state and the returned pointer value.  In the trailing
free-block branch (src/simplified_smm.c:170-179) the C calls
`mm_sbrk(size - last.size)` and then unconditionally overwrites the last
header (`size = size`, `status = OCCUPIED`) and returns its payload — it
never inspects the `mm_sbrk` return value, so the overwrite happens even
when the growth failed (only the break moves on success). -/
def mm_malloc (hs : Nat) (h : Heap) (size : Nat) : Heap × Nat :=
  match mallocScan size h.blocks hs with
  | .found bs2 payload => (⟨bs2, h.brk⟩, payload)
  | .notFound none => mallocGrowNew hs h size
  | .notFound (some (lastAddr, lastMD)) =>
    if lastMD.status = META_DATA_STATUS_OCCUPIED then
      mallocGrowNew hs h size
    else
      let r := mm_sbrk hs true h.brk ((size : Int) - (lastMD.size : Int))
      (⟨h.blocks.dropLast ++ [⟨size, META_DATA_STATUS_OCCUPIED⟩], r.1⟩,
       lastAddr + meta_data_size)

/-- The single status write of `mm_free` (src/simplified_smm.c:182-186):
set `status = FREE` in the header located at address `target`.  Headers
live at strictly increasing addresses, so at most the first match is the
real header; a `target` that is no header's address writes nothing in the
model (in the C that write is undefined behavior, spec §4.3/§7, and is
never performed by the harness). -/
def setStatusAt : List MetaData → Nat → Nat → List MetaData
  | [], _, _ => []
  | md :: rest, cur, target =>
    if cur = target then ⟨md.size, META_DATA_STATUS_FREE⟩ :: rest
    else md :: setStatusAt rest (cur + meta_data_size + md.size) target

/-- Translation of `mm_free` (src/simplified_smm.c:182-186): interpret
`p - meta_data_size` as a header and set its status to FREE.  No
coalescing, no break movement. -/
def mm_free (hs : Nat) (h : Heap) (p : Nat) : Heap :=
  ⟨setStatusAt h.blocks hs (p - meta_data_size), h.brk⟩

/-- The loop body of `mm_combine_nearby_free` (src/simplified_smm.c:192-217)
with the block under the cursor (`md`, the header `cur` points at) as an
explicit argument and the blocks after it as the list.  When `md` is FREE
and a successor exists before the break (the list is non-empty, under the
contiguity invariant) and that successor is FREE, the inner `while` absorbs
it: `md->size += meta_data_size + next->size`, and re-examines the new
successor.  When the successor is OCCUPIED the inner loop breaks and the
outer loop advances past `md`; when `md` is OCCUPIED the outer loop just
advances; when no successor remains before the break the function
returns, leaving `md` as the final block. -/
def combineGo : MetaData → List MetaData → List MetaData
  | md, [] => [md]
  | md, next :: rest =>
    if md.status = META_DATA_STATUS_FREE then
      if next.status = META_DATA_STATUS_FREE then
        combineGo { md with size := md.size + meta_data_size + next.size } rest
      else md :: combineGo next rest
    else md :: combineGo next rest

/-- Translation of the full traversal of `mm_combine_nearby_free`
(src/simplified_smm.c:188-218) on the block list. -/
def combineBlocks : List MetaData → List MetaData
  | [] => []
  | md :: rest => combineGo md rest

/-- Translation of `mm_combine_nearby_free` (src/simplified_smm.c:188-218):
the break is not touched. -/
def mm_combine_nearby_free (h : Heap) : Heap :=
  ⟨combineBlocks h.blocks, h.brk⟩

/-- Translation of `mm_print` (src/simplified_smm.c:105-122): one line per
block, `(1-based index, "FREE" or "OCCP", payload size)`. -/
def mm_print_lines : List MetaData → Nat → List (Nat × String × Nat)
  | [], _ => []
  | md :: rest, i =>
    (i, (if md.status = META_DATA_STATUS_FREE then "FREE" else "OCCP"), md.size) ::
      mm_print_lines rest (i + 1)

/-- The inspector `describe_blocks` of the spec is `mm_print`; read-only. -/
def mm_print (h : Heap) : List (Nat × String × Nat) :=
  mm_print_lines h.blocks 1

/-- Success of one `mm_malloc` call: whichever `mm_sbrk` call the taken
branch performs (if any) does not return `MAP_FAILED`. -/
def mallocSucceeds (hs : Nat) (h : Heap) (size : Nat) : Bool :=
  match mallocScan size h.blocks hs with
  | .found _ _ => true
  | .notFound none =>
    (mm_sbrk hs true h.brk ((size : Int) + (meta_data_size : Int))).2.isSome
  | .notFound (some (_, lastMD)) =>
    if lastMD.status = META_DATA_STATUS_OCCUPIED then
      (mm_sbrk hs true h.brk ((size : Int) + (meta_data_size : Int))).2.isSome
    else
      (mm_sbrk hs true h.brk ((size : Int) - (lastMD.size : Int))).2.isSome

/-- Payload addresses handed out by the engine: `p` is the payload of the
`i`-th block. -/
def ValidPayload (hs : Nat) (h : Heap) (p : Nat) : Prop :=
  ∃ i, i < h.blocks.length ∧ p = headerAddr hs h.blocks i + meta_data_size

/-- States reachable from the freshly initialized arena
(`heap_current_break = heap_start`, empty block list) by successful
`mm_malloc` calls, `mm_free` of payload addresses of existing blocks, and
`mm_combine_nearby_free`. -/
inductive Reachable (hs : Nat) : Heap → Prop
  | init : Reachable hs ⟨[], 0⟩
  | malloc {h : Heap} {size : Nat} (hr : Reachable hs h)
      (hok : mallocSucceeds hs h size = true) :
      Reachable hs (mm_malloc hs h size).1
  | free {h : Heap} {p : Nat} (hr : Reachable hs h) (hp : ValidPayload hs h p) :
      Reachable hs (mm_free hs h p)
  | combine {h : Heap} (hr : Reachable hs h) :
      Reachable hs (mm_combine_nearby_free h)

/-! Basic facts about `sumLen`. -/

theorem sumLen_nil : sumLen [] = 0 := rfl

theorem sumLen_cons (b : MetaData) (bs : List MetaData) :
    sumLen (b :: bs) = meta_data_size + b.size + sumLen bs := by
  simp [sumLen]

theorem sumLen_append (as bs : List MetaData) :
    sumLen (as ++ bs) = sumLen as + sumLen bs := by
  simp [sumLen]

/-! Inversion and forward lemmas for the first-fit scan loop. -/

theorem mallocScan_notFound_none (size : Nat) :
    ∀ (bs : List MetaData) (cur : Nat),
      mallocScan size bs cur = .notFound none → bs = [] := by
  intro bs
  induction bs with
  | nil => intro cur _; rfl
  | cons b rest ih =>
    intro cur h
    by_cases hfit : b.status = META_DATA_STATUS_FREE ∧ size ≤ b.size
    · simp only [mallocScan, if_pos hfit] at h
      split at h <;> simp at h
    · simp only [mallocScan, if_neg hfit] at h
      cases hrec : mallocScan size rest (cur + meta_data_size + b.size) with
      | found bs2 a => rw [hrec] at h; simp at h
      | notFound lb =>
        cases lb with
        | none => rw [hrec] at h; simp at h
        | some last => rw [hrec] at h; simp at h

theorem mallocScan_notFound_some (size : Nat) :
    ∀ (bs : List MetaData) (cur la : Nat) (md : MetaData),
      mallocScan size bs cur = .notFound (some (la, md)) →
      ∃ pre, bs = pre ++ [md] ∧ la = cur + sumLen pre ∧
        ¬(md.status = META_DATA_STATUS_FREE ∧ size ≤ md.size) := by
  intro bs
  induction bs with
  | nil => intro cur la md h; simp [mallocScan] at h
  | cons b rest ih =>
    intro cur la md h
    by_cases hfit : b.status = META_DATA_STATUS_FREE ∧ size ≤ b.size
    · simp only [mallocScan, if_pos hfit] at h
      split at h <;> simp at h
    · simp only [mallocScan, if_neg hfit] at h
      cases hrec : mallocScan size rest (cur + meta_data_size + b.size) with
      | found bs2 a => rw [hrec] at h; simp at h
      | notFound lb =>
        cases lb with
        | none =>
          rw [hrec] at h
          simp only [ScanResult.notFound.injEq, Option.some.injEq,
            Prod.mk.injEq] at h
          obtain ⟨hla, hmd⟩ := h
          have hrest : rest = [] := mallocScan_notFound_none size rest _ hrec
          subst hrest hla hmd
          exact ⟨[], by simp, by simp [sumLen_nil], hfit⟩
        | some last =>
          rw [hrec] at h
          simp only [ScanResult.notFound.injEq, Option.some.injEq] at h
          subst h
          obtain ⟨pre, hbs, hla, hnf⟩ := ih _ _ _ hrec
          refine ⟨b :: pre, by simp [hbs], ?_, hnf⟩
          rw [hla, sumLen_cons]
          omega

theorem mallocScan_found (size : Nat) :
    ∀ (bs : List MetaData) (cur : Nat) (bs2 : List MetaData) (a : Nat),
      mallocScan size bs cur = .found bs2 a →
      sumLen bs2 = sumLen bs ∧ cur + meta_data_size ≤ a ∧
      ∀ b ∈ bs2, b ∈ bs ∨ b.status = META_DATA_STATUS_FREE ∨
        b.status = META_DATA_STATUS_OCCUPIED := by
  intro bs
  induction bs with
  | nil => intro cur bs2 a h; simp [mallocScan] at h
  | cons b rest ih =>
    intro cur bs2 a h
    by_cases hfit : b.status = META_DATA_STATUS_FREE ∧ size ≤ b.size
    · by_cases hsplit : enoughToSplit b size = true
      · simp only [mallocScan, if_pos hfit, if_pos hsplit,
          ScanResult.found.injEq] at h
        have hlt : size + meta_data_size < b.size := of_decide_eq_true hsplit
        obtain ⟨hbs2, ha⟩ := h
        subst hbs2
        refine ⟨?_, by omega, ?_⟩
        · rw [sumLen_cons, sumLen_cons, sumLen_cons]
          dsimp only
          omega
        · intro x hx
          simp only [List.mem_cons] at hx
          rcases hx with hx | hx | hx
          · subst hx; right; right; rfl
          · subst hx; right; left; rfl
          · left; exact List.mem_cons_of_mem _ hx
      · simp only [mallocScan, if_pos hfit, if_neg hsplit,
          ScanResult.found.injEq] at h
        obtain ⟨hbs2, ha⟩ := h
        subst hbs2
        refine ⟨by rw [sumLen_cons, sumLen_cons], by omega, ?_⟩
        intro x hx
        simp only [List.mem_cons] at hx
        rcases hx with hx | hx
        · subst hx; right; right; rfl
        · left; exact List.mem_cons_of_mem _ hx
    · simp only [mallocScan, if_neg hfit] at h
      cases hrec : mallocScan size rest (cur + meta_data_size + b.size) with
      | found bs2a aa =>
        rw [hrec] at h
        simp only [ScanResult.found.injEq] at h
        obtain ⟨hbs2, ha⟩ := h
        subst hbs2 ha
        obtain ⟨hsum, hlb, hmem⟩ := ih _ _ _ hrec
        refine ⟨by rw [sumLen_cons, sumLen_cons, hsum], by omega, ?_⟩
        intro x hx
        simp only [List.mem_cons] at hx
        rcases hx with hx | hx
        · subst hx; left; exact List.mem_cons_self _ _
        · rcases hmem x hx with hm | hm
          · left; exact List.mem_cons_of_mem _ hm
          · right; exact hm
      | notFound lb =>
        cases lb with
        | none => rw [hrec] at h; simp at h
        | some last => rw [hrec] at h; simp at h

theorem mallocScan_first_fit (size : Nat) (md : MetaData)
    (hfree : md.status = META_DATA_STATUS_FREE) (hsz : size ≤ md.size) :
    ∀ (pre rest : List MetaData) (cur : Nat),
      (∀ b ∈ pre, ¬(b.status = META_DATA_STATUS_FREE ∧ size ≤ b.size)) →
      mallocScan size (pre ++ md :: rest) cur =
        .found (pre ++ (if enoughToSplit md size then
            ⟨size, META_DATA_STATUS_OCCUPIED⟩ ::
              ⟨md.size - size - meta_data_size, META_DATA_STATUS_FREE⟩ :: rest
          else ⟨md.size, META_DATA_STATUS_OCCUPIED⟩ :: rest))
          (cur + sumLen pre + meta_data_size) := by
  intro pre
  induction pre with
  | nil =>
    intro rest cur _
    simp only [List.nil_append, mallocScan, if_pos (And.intro hfree hsz)]
    by_cases hsplit : enoughToSplit md size = true
    · rw [if_pos hsplit, if_pos hsplit]
      simp [sumLen_nil]
    · rw [if_neg hsplit, if_neg hsplit]
      simp [sumLen_nil]
  | cons p pre2 ih =>
    intro rest cur hpre
    have hpfit : ¬(p.status = META_DATA_STATUS_FREE ∧ size ≤ p.size) :=
      hpre p (List.mem_cons_self _ _)
    have hpre2 : ∀ b ∈ pre2, ¬(b.status = META_DATA_STATUS_FREE ∧ size ≤ b.size) :=
      fun b hb => hpre b (List.mem_cons_of_mem _ hb)
    simp only [List.cons_append, mallocScan, if_neg hpfit, List.append_eq]
    rw [ih rest (cur + meta_data_size + p.size) hpre2]
    simp only [ScanResult.found.injEq, List.cons_append, true_and]
    rw [sumLen_cons]
    omega

theorem mallocScan_nofit (size : Nat) :
    ∀ (pre : List MetaData) (last : MetaData) (cur : Nat),
      (∀ b ∈ pre ++ [last], ¬(b.status = META_DATA_STATUS_FREE ∧ size ≤ b.size)) →
      mallocScan size (pre ++ [last]) cur =
        .notFound (some (cur + sumLen pre, last)) := by
  intro pre
  induction pre with
  | nil =>
    intro last cur hnf
    have hlfit : ¬(last.status = META_DATA_STATUS_FREE ∧ size ≤ last.size) :=
      hnf last (by simp)
    simp only [List.nil_append, mallocScan, if_neg hlfit]
    simp [mallocScan, sumLen_nil]
  | cons p pre2 ih =>
    intro last cur hnf
    have hpfit : ¬(p.status = META_DATA_STATUS_FREE ∧ size ≤ p.size) :=
      hnf p (by simp)
    have hnf2 : ∀ b ∈ pre2 ++ [last],
        ¬(b.status = META_DATA_STATUS_FREE ∧ size ≤ b.size) :=
      fun b hb => hnf b (by simp [List.mem_append] at hb ⊢; tauto)
    simp only [List.cons_append, mallocScan, if_neg hpfit, List.append_eq]
    rw [ih last (cur + meta_data_size + p.size) hnf2]
    simp only [ScanResult.notFound.injEq, Option.some.injEq, Prod.mk.injEq,
      and_true]
    rw [sumLen_cons]
    omega

/-! Evaluation lemmas for `mm_sbrk`, one per contract case. -/

theorem mm_sbrk_uninit (hs brk : Nat) (sz : Int) :
    mm_sbrk hs false brk sz = (brk, none) := by
  unfold mm_sbrk
  rw [if_pos rfl]

theorem mm_sbrk_zero (hs brk : Nat) :
    mm_sbrk hs true brk 0 = (brk, some (hs + brk)) := by
  unfold mm_sbrk
  rw [if_neg (by simp), if_pos rfl]

theorem mm_sbrk_grow (hs brk : Nat) (sz : Int) (hpos : 0 < sz)
    (hle : (brk : Int) + sz ≤ (HEAP_SIZE : Int)) :
    mm_sbrk hs true brk sz = (((brk : Int) + sz).toNat, some (hs + brk)) := by
  unfold mm_sbrk
  rw [if_neg (by simp), if_neg (by omega), if_pos ⟨hpos, hle⟩]

theorem mm_sbrk_grow_fail (hs brk : Nat) (sz : Int) (hpos : 0 < sz)
    (hgt : (HEAP_SIZE : Int) < (brk : Int) + sz) :
    mm_sbrk hs true brk sz = (brk, none) := by
  unfold mm_sbrk
  rw [if_neg (by simp), if_neg (by omega), if_neg (by omega), if_neg (by omega)]

theorem mm_sbrk_shrink (hs brk : Nat) (sz : Int) (hneg : sz < 0)
    (hge : 0 ≤ (brk : Int) + sz) :
    mm_sbrk hs true brk sz = (((brk : Int) + sz).toNat, some (hs + brk)) := by
  unfold mm_sbrk
  rw [if_neg (by simp), if_neg (by omega), if_neg (by omega), if_pos ⟨hneg, hge⟩]

theorem mm_sbrk_shrink_fail (hs brk : Nat) (sz : Int) (hneg : sz < 0)
    (hlt : (brk : Int) + sz < 0) :
    mm_sbrk hs true brk sz = (brk, none) := by
  unfold mm_sbrk
  rw [if_neg (by simp), if_neg (by omega), if_neg (by omega), if_neg (by omega)]

/-- First-fit behaviour of `mm_malloc`: with no satisfying block before
`md` and `md` free and large enough, the scan stops at `md`, splits it
when `enoughToSplit`, marks it occupied and returns its payload address. -/
theorem mm_malloc_first_fit (hs size brk : Nat) (pre rest : List MetaData)
    (md : MetaData)
    (hpre : ∀ b ∈ pre, ¬(b.status = META_DATA_STATUS_FREE ∧ size ≤ b.size))
    (hfree : md.status = META_DATA_STATUS_FREE) (hsz : size ≤ md.size) :
    mm_malloc hs ⟨pre ++ md :: rest, brk⟩ size =
      (⟨pre ++ (if enoughToSplit md size then
          ⟨size, META_DATA_STATUS_OCCUPIED⟩ ::
            ⟨md.size - size - meta_data_size, META_DATA_STATUS_FREE⟩ :: rest
        else ⟨md.size, META_DATA_STATUS_OCCUPIED⟩ :: rest), brk⟩,
       hs + sumLen pre + meta_data_size) := by
  simp only [mm_malloc, mallocScan_first_fit size md hfree hsz pre rest hs hpre]

/-- C3: when `allocate(n)` is satisfied by an existing free block of size
`S`, a split occurs iff `S > n + header_size` (strict); after a split the
satisfied block is OCCUPIED of size exactly `n`, immediately followed by a
new FREE block of size exactly `S - n - header_size`; with `n ≤ S ≤ n +
header_size` the block is just marked OCCUPIED with size `S` unchanged. -/
theorem C3_split_iff (hs n S brk : Nat) (pre rest : List MetaData)
    (hpre : ∀ b ∈ pre, ¬(b.status = META_DATA_STATUS_FREE ∧ n ≤ b.size))
    (hS : n ≤ S)
    (_hwf : sumLen (pre ++ fblk S :: rest) = brk) :
    (mm_malloc hs ⟨pre ++ fblk S :: rest, brk⟩ n).1.blocks =
      if n + meta_data_size < S
      then pre ++ oblk n :: fblk (S - n - meta_data_size) :: rest
      else pre ++ oblk S :: rest := by
  rw [mm_malloc_first_fit hs n brk pre rest (fblk S) hpre rfl hS]
  by_cases hsplit : n + meta_data_size < S
  · rw [if_pos hsplit, if_pos (by simpa [enoughToSplit, fblk] using hsplit)]
    rfl
  · rw [if_neg hsplit, if_neg (by simpa [enoughToSplit, fblk] using hsplit)]
    rfl

/-- C3 witness: in the arena holding the single free block of size 20,
`allocate(5)` splits it into an occupied block of size 5 followed by a free
block of size 20 - 5 - 9 = 6. -/
theorem C3_split_iff_witness :
    (mm_malloc 1 ⟨[fblk 20], 29⟩ 5).1.blocks = [oblk 5, fblk 6] := by
  have h := C3_split_iff 1 5 20 29 [] [] (by decide) (by decide) (by decide)
  exact h.trans (by decide)

/-- C4: `allocate(size)` selects the first block in ascending address
order that is FREE with `size ≥` the request — whatever free blocks
follow it (`rest` is arbitrary) — marks it OCCUPIED (splitting when
`enoughToSplit`) and returns that block's payload address. -/
theorem C4_first_fit_order (hs size brk : Nat) (pre rest : List MetaData)
    (md : MetaData)
    (hpre : ∀ b ∈ pre, ¬(b.status = META_DATA_STATUS_FREE ∧ size ≤ b.size))
    (hfree : md.status = META_DATA_STATUS_FREE) (hsz : size ≤ md.size)
    (_hwf : sumLen (pre ++ md :: rest) = brk) :
    mm_malloc hs ⟨pre ++ md :: rest, brk⟩ size =
      (⟨pre ++ (if enoughToSplit md size then
          ⟨size, META_DATA_STATUS_OCCUPIED⟩ ::
            ⟨md.size - size - meta_data_size, META_DATA_STATUS_FREE⟩ :: rest
        else ⟨md.size, META_DATA_STATUS_OCCUPIED⟩ :: rest), brk⟩,
       hs + sumLen pre + meta_data_size) :=
  mm_malloc_first_fit hs size brk pre rest md hpre hfree hsz

/-- C4 witness: free blocks of sizes [2, 10, 5] at increasing addresses,
request 4: the block of size 10 (the first large enough, not the
better-fitting 5) is chosen; its payload address 1 + (9+2) + 9 = 21 is
returned and it is marked occupied with no split (10 ≤ 4 + 9). -/
theorem C4_first_fit_order_witness :
    mm_malloc 1 ⟨[fblk 2, fblk 10, fblk 5], 44⟩ 4 =
      (⟨[fblk 2, oblk 10, fblk 5], 44⟩, 21) := by
  have h := C4_first_fit_order 1 4 44 [fblk 2] [fblk 5] (fblk 10)
    (by decide) (by decide) (by decide) (by decide)
  exact h.trans (by decide)

/-- C5: when no free block satisfies the request and the last block is
FREE (necessarily of size `L <` the request), a successful growth advances
the break by exactly `size - L` (not `size + header_size`), resizes the
last block to exactly `size`, marks it OCCUPIED and returns its payload
address; no new header is created (the block count is unchanged). -/
theorem C5_growth_reuse (hs size brk L : Nat) (pre : List MetaData)
    (hnofit : ∀ b ∈ pre ++ [fblk L],
      ¬(b.status = META_DATA_STATUS_FREE ∧ size ≤ b.size))
    (_hwf : sumLen (pre ++ [fblk L]) = brk)
    (hgrow : (brk : Int) + ((size : Int) - (L : Int)) ≤ (HEAP_SIZE : Int)) :
    mm_malloc hs ⟨pre ++ [fblk L], brk⟩ size =
      (⟨pre ++ [oblk size], brk + (size - L)⟩,
       hs + sumLen pre + meta_data_size) := by
  have hL : L < size := by
    have h1 := hnofit (fblk L) (by simp)
    simp [fblk] at h1
    omega
  have hscan := mallocScan_nofit size pre (fblk L) hs hnofit
  have hstat : ¬((fblk L).status = META_DATA_STATUS_OCCUPIED) := by
    simp only [fblk]
    decide
  simp only [mm_malloc, hscan, if_neg hstat, List.dropLast_concat]
  simp only [fblk]
  rw [mm_sbrk_grow hs brk _ (by omega) hgrow]
  have hnat : (((brk : Int) + ((size : Int) - (L : Int))).toNat) = brk + (size - L) := by
    omega
  rw [hnat]
  rfl

/-- C5 witness: the spec's growth-reuse example — the only block is a free
block of size 2 (break offset 11) and `allocate(10)` is requested; the
break grows by exactly 8 (11 → 19, not by 10 + 9) and the block becomes
occupied of size 10. -/
theorem C5_growth_reuse_witness :
    mm_malloc 1 ⟨[fblk 2], 11⟩ 10 = (⟨[oblk 10], 19⟩, 10) := by
  have h := C5_growth_reuse 1 10 11 2 [] (by decide) (by decide) (by decide)
  exact h.trans (by decide)

/-- C8: the full contract of `mm_sbrk` (the spec's `adjust_break`):
it fails (`MAP_FAILED`, modelled `none`) when the arena is uninitialized;
`delta = 0` returns the current break without mutation; `delta > 0`
advances the break by `delta` and returns the pre-advance break when
`current_break + delta ≤ end`, and otherwise fails (the spec's
`OutOfMemory`) leaving the break unchanged; `delta < 0` retreats the break
by `|delta|` and returns the pre-retreat break when
`current_break + delta ≥ start`, and otherwise fails (the spec's
`InvalidShrink`) leaving the break unchanged. -/
theorem C8_adjust_break_contract (hs brk : Nat) (sz : Int) :
    (mm_sbrk hs false brk sz = (brk, none)) ∧
    (sz = 0 → mm_sbrk hs true brk sz = (brk, some (hs + brk))) ∧
    (0 < sz → (brk : Int) + sz ≤ (HEAP_SIZE : Int) →
      mm_sbrk hs true brk sz = (((brk : Int) + sz).toNat, some (hs + brk))) ∧
    (0 < sz → (HEAP_SIZE : Int) < (brk : Int) + sz →
      mm_sbrk hs true brk sz = (brk, none)) ∧
    (sz < 0 → 0 ≤ (brk : Int) + sz →
      mm_sbrk hs true brk sz = (((brk : Int) + sz).toNat, some (hs + brk))) ∧
    (sz < 0 → (brk : Int) + sz < 0 →
      mm_sbrk hs true brk sz = (brk, none)) := by
  refine ⟨mm_sbrk_uninit hs brk sz, ?_, ?_, ?_, ?_, ?_⟩
  · intro h0
    subst h0
    exact mm_sbrk_zero hs brk
  · exact mm_sbrk_grow hs brk sz
  · exact mm_sbrk_grow_fail hs brk sz
  · exact mm_sbrk_shrink hs brk sz
  · exact mm_sbrk_shrink_fail hs brk sz

/-- C8 witness: concrete instances of each clause — a successful growth
(break 5, delta 3: advances to 8, returns old break address 6), a growth
past `heap_end` (break 7998, delta 3: fails, break unchanged), an
uninitialized arena (fails), and a successful shrink (break 5, delta -2:
retreats to 3, returns old break address 6). -/
theorem C8_adjust_break_contract_witness :
    mm_sbrk 1 true 5 3 = (8, some 6) ∧
    mm_sbrk 1 true 7998 3 = (7998, none) ∧
    mm_sbrk 1 false 5 3 = (5, none) ∧
    mm_sbrk 1 true 5 (-2) = (3, some 6) := by
  refine ⟨?_, ?_, (C8_adjust_break_contract 1 5 3).1, ?_⟩
  · exact ((C8_adjust_break_contract 1 5 3).2.2.1 (by decide)
      (by decide)).trans (by decide)
  · exact (C8_adjust_break_contract 1 7998 3).2.2.2.1 (by decide) (by decide)
  · exact ((C8_adjust_break_contract 1 5 (-2)).2.2.2.2.1 (by decide)
      (by decide)).trans (by decide)

theorem meta_data_size_pos : 0 < meta_data_size := by decide

/-- The status write of `mm_free` targeted at the `i`-th header updates
exactly block `i`: header addresses are strictly increasing, so no earlier
header matches. -/
theorem setStatusAt_at_index :
    ∀ (bs : List MetaData) (i cur : Nat) (hi : i < bs.length),
      setStatusAt bs cur (cur + sumLen (bs.take i)) =
        bs.set i ⟨(bs.get ⟨i, hi⟩).size, META_DATA_STATUS_FREE⟩ := by
  intro bs
  induction bs with
  | nil => intro i cur hi; simp at hi
  | cons b rest ih =>
    intro i cur hi
    cases i with
    | zero =>
      simp only [List.take_zero, sumLen_nil, Nat.add_zero, setStatusAt]
      simp
    | succ i =>
      have hi2 : i < rest.length := by simpa using hi
      have hmp := meta_data_size_pos
      have harg : cur + sumLen ((b :: rest).take (i + 1)) =
          cur + meta_data_size + b.size + sumLen (rest.take i) := by
        rw [List.take_succ_cons, sumLen_cons]
        omega
      rw [harg]
      simp only [setStatusAt]
      rw [if_neg (by omega)]
      rw [ih i (cur + meta_data_size + b.size) hi2]
      simp only [List.set_cons_succ, List.get_cons_succ]

theorem list_set_get_self :
    ∀ (bs : List MetaData) (i : Nat) (hi : i < bs.length),
      bs.set i (bs.get ⟨i, hi⟩) = bs := by
  intro bs
  induction bs with
  | nil => intro i hi; simp at hi
  | cons b rest ih =>
    intro i hi
    cases i with
    | zero => simp
    | succ i =>
      have hi2 : i < rest.length := by simpa using hi
      simp only [List.set_cons_succ, List.get_cons_succ, ih i hi2]

theorem list_take_set (x : MetaData) :
    ∀ (bs : List MetaData) (i : Nat), (bs.set i x).take i = bs.take i := by
  intro bs
  induction bs with
  | nil => intro i; simp
  | cons b rest ih =>
    intro i
    cases i with
    | zero => simp
    | succ i => simp [ih i]

theorem list_get_set_self (x : MetaData) :
    ∀ (bs : List MetaData) (i : Nat) (hi : i < bs.length),
      (bs.set i x).get ⟨i, (by simp; exact hi : i < (bs.set i x).length)⟩ = x := by
  intro bs
  induction bs with
  | nil => intro i hi; simp at hi
  | cons b rest ih =>
    intro i hi
    cases i with
    | zero => simp
    | succ i =>
      have hi2 : i < rest.length := by simpa using hi
      simp only [List.set_cons_succ, List.get_cons_succ]
      exact ih i hi2

/-- C9: for the payload address of existing block `i`, `mm_free` updates
exactly that block's status to FREE — its size, all other blocks and the
break are untouched (first conjunct: the new state is the old one with
only block `i`'s status replaced); freeing an already-FREE block leaves
the entire state identical (second conjunct); and freeing the same
payload twice equals freeing it once (third conjunct: idempotence).
No coalescing happens and the break never moves (`mm_free` keeps `brk`). -/
theorem C9_free_frame (hs : Nat) (h : Heap) (i : Nat)
    (hi : i < h.blocks.length) :
    mm_free hs h (headerAddr hs h.blocks i + meta_data_size) =
      ⟨h.blocks.set i ⟨(h.blocks.get ⟨i, hi⟩).size, META_DATA_STATUS_FREE⟩,
       h.brk⟩ ∧
    ((h.blocks.get ⟨i, hi⟩).status = META_DATA_STATUS_FREE →
      mm_free hs h (headerAddr hs h.blocks i + meta_data_size) = h) ∧
    mm_free hs (mm_free hs h (headerAddr hs h.blocks i + meta_data_size))
        (headerAddr hs h.blocks i + meta_data_size) =
      mm_free hs h (headerAddr hs h.blocks i + meta_data_size) := by
  have hmain : mm_free hs h (headerAddr hs h.blocks i + meta_data_size) =
      ⟨h.blocks.set i ⟨(h.blocks.get ⟨i, hi⟩).size, META_DATA_STATUS_FREE⟩,
       h.brk⟩ := by
    simp only [mm_free, Nat.add_sub_cancel, headerAddr,
      setStatusAt_at_index h.blocks i hs hi]
  refine ⟨hmain, ?_, ?_⟩
  · intro hst
    rw [hmain]
    have hx : (⟨(h.blocks.get ⟨i, hi⟩).size, META_DATA_STATUS_FREE⟩ :
        MetaData) = h.blocks.get ⟨i, hi⟩ := by
      rw [← hst]
    rw [hx, list_set_get_self h.blocks i hi]
  · rw [hmain]
    have hi2 : i < (h.blocks.set i
        ⟨(h.blocks.get ⟨i, hi⟩).size, META_DATA_STATUS_FREE⟩).length := by
      simpa using hi
    have heq : headerAddr hs h.blocks i =
        headerAddr hs (h.blocks.set i
          ⟨(h.blocks.get ⟨i, hi⟩).size, META_DATA_STATUS_FREE⟩) i := by
      simp only [headerAddr, list_take_set]
    rw [heq]
    simp only [mm_free, Nat.add_sub_cancel, headerAddr,
      setStatusAt_at_index _ i hs hi2]
    rw [list_get_set_self _ h.blocks i hi, List.set_set]

/-- C9 witness: in the two-block arena `[occupied 3, occupied 4]`
(break 25), freeing the payload of block 1 (header at 1 + 12, payload 22)
frees exactly that block and nothing else. -/
theorem C9_free_frame_witness :
    mm_free 1 ⟨[oblk 3, oblk 4], 25⟩ 22 = ⟨[oblk 3, fblk 4], 25⟩ := by
  have h := (C9_free_frame 1 ⟨[oblk 3, oblk 4], 25⟩ 1 (by decide)).1
  exact h.trans (by decide)

/-- C1 (code bug): exhaustion is not handled cleanly.  On the reachable
state with a single FREE block of size 2 (break offset 11), `allocate
7992` needs growth 7990, and 11 + 7990 = 8001 exceeds the arena, so the
`mm_sbrk` call fails with `MAP_FAILED` (first conjunct) — yet `mm_malloc`
still mutates the existing last header to size 7992 / OCCUPIED (leaving
the break at 11) and returns its payload as if the allocation succeeded
(second conjunct), instead of failing with `OutOfMemory` and leaving
every header untouched.  With no trailing free block (third conjunct:
empty arena, request 7992, 7992 + 9 > 8000) the failed growth leaves the
list and break unchanged but `mm_malloc` writes a header through the
`MAP_FAILED` sentinel and returns the non-error value
`(2^64 - 1 + 9) % 2^64 = 8` instead of reporting `OutOfMemory`. -/
theorem C1_exhaustion_mutates_header :
    (mm_sbrk 1 true 11 ((7992 : Int) - (2 : Int))).2 = none ∧
    mm_malloc 1 ⟨[fblk 2], 11⟩ 7992 = (⟨[oblk 7992], 11⟩, 10) ∧
    mm_malloc 1 ⟨[], 0⟩ 7992 = (⟨[], 0⟩, 8) := by
  refine ⟨by decide, by decide, by decide⟩

/-- Every successful `mm_sbrk` call returns the pre-call break address. -/
theorem mm_sbrk_some_eq (hs : Nat) (init : Bool) (brk : Nat) (sz : Int)
    (a : Nat) (h : (mm_sbrk hs init brk sz).2 = some a) : a = hs + brk := by
  unfold mm_sbrk at h
  split at h
  · simp at h
  · split at h
    · simp only [Option.some.injEq] at h
      omega
    · split at h
      · simp only [Option.some.injEq] at h
        omega
      · split at h
        · simp only [Option.some.injEq] at h
          omega
        · simp at h

/-- C10 (implicit): `mm_malloc` never returns the null pointer, whatever
the request size and arena state: every return value is either an
in-arena payload address (a header address plus `meta_data_size`) or, on
arena-growth failure, `MAP_FAILED + meta_data_size = 8` — so a caller
that compares the result against `NULL` to detect allocation failure
never observes a failure. -/
theorem C10_never_null (hs size : Nat) (h : Heap) :
    (mm_malloc hs h size).2 ≠ 0 := by
  have hmp := meta_data_size_pos
  cases hscan : mallocScan size h.blocks hs with
  | found bs2 a =>
    have hb := (mallocScan_found size h.blocks hs bs2 a hscan).2.1
    simp only [mm_malloc, hscan]
    omega
  | notFound lb =>
    have hgrow : (mallocGrowNew hs h size).2 ≠ 0 := by
      unfold mallocGrowNew
      cases hsb : mm_sbrk hs true h.brk ((size : Int) + (meta_data_size : Int)) with
      | mk brk2 r =>
        cases r with
        | some start => simp only []; omega
        | none => simp only []; decide
    cases lb with
    | none => simp only [mm_malloc, hscan]; exact hgrow
    | some last =>
      obtain ⟨la, md⟩ := last
      by_cases hocc : md.status = META_DATA_STATUS_OCCUPIED
      · simp only [mm_malloc, hscan, if_pos hocc]
        exact hgrow
      · simp only [mm_malloc, hscan, if_neg hocc]
        omega

/-- Boolean form of the coalescer's freeness test. -/
def isFreeB (b : MetaData) : Bool :=
  decide (b.status = META_DATA_STATUS_FREE)

/-- Specification-side description of coalescing one maximal run (spec
§4.4 net effect): a run of consecutive free blocks becomes a single FREE
block whose size is the sum of the run's payload sizes plus
`header_size * (run length - 1)`. -/
def collapseRun (run : List MetaData) : MetaData :=
  ⟨(run.map MetaData.size).sum + meta_data_size * (run.length - 1),
   META_DATA_STATUS_FREE⟩

theorem dropWhile_length_le (p : MetaData → Bool) :
    ∀ l : List MetaData, (List.dropWhile p l).length ≤ l.length := by
  intro l
  induction l with
  | nil => simp
  | cons a l2 ih =>
    rw [List.dropWhile_cons]
    by_cases hp : p a = true
    · rw [if_pos hp]
      simp only [List.length_cons]
      omega
    · rw [if_neg hp]

theorem dropWhile_head_false (p : MetaData → Bool) :
    ∀ (l : List MetaData) (x : MetaData) (xs : List MetaData),
      List.dropWhile p l = x :: xs → p x = false := by
  intro l
  induction l with
  | nil => intro x xs h; simp at h
  | cons a l2 ih =>
    intro x xs h
    rw [List.dropWhile_cons] at h
    by_cases hp : p a = true
    · rw [if_pos hp] at h
      exact ih x xs h
    · rw [if_neg hp] at h
      cases h
      simpa using hp

/-- Specification-side description of the whole coalescer (spec §4.4): in
address order, each maximal run of consecutive free blocks (`takeWhile`)
collapses into one free block; occupied blocks are passed through
untouched. -/
def coalesceSpec : List MetaData → List MetaData
  | [] => []
  | md :: rest =>
    if isFreeB md then
      collapseRun (md :: rest.takeWhile isFreeB) ::
        coalesceSpec (rest.dropWhile isFreeB)
    else
      md :: coalesceSpec rest
termination_by bs => bs.length
decreasing_by
  · simp only [List.length_cons]
    have := dropWhile_length_le isFreeB rest
    omega
  · simp

theorem sumLen_eq_mul_add :
    ∀ t : List MetaData,
      sumLen t = meta_data_size * t.length + (t.map MetaData.size).sum := by
  intro t
  induction t with
  | nil => simp [sumLen_nil]
  | cons b t2 ih =>
    rw [sumLen_cons, ih]
    simp only [List.length_cons, List.map_cons, List.sum_cons, meta_data_size]
    omega

theorem collapseRun_cons (x : MetaData) (t : List MetaData) :
    collapseRun (x :: t) = ⟨x.size + sumLen t, META_DATA_STATUS_FREE⟩ := by
  simp only [collapseRun, List.map_cons, List.sum_cons, List.length_cons,
    Nat.add_sub_cancel, sumLen_eq_mul_add]
  congr 1
  omega

theorem combineGo_free_run :
    ∀ (rest : List MetaData) (s : Nat),
      combineGo ⟨s, META_DATA_STATUS_FREE⟩ rest =
        ⟨s + sumLen (rest.takeWhile isFreeB), META_DATA_STATUS_FREE⟩ ::
          combineBlocks (rest.dropWhile isFreeB) := by
  intro rest
  induction rest with
  | nil =>
    intro s
    simp [combineGo, combineBlocks, sumLen_nil]
  | cons next rest2 ih =>
    intro s
    by_cases hnf : next.status = META_DATA_STATUS_FREE
    · have hb : isFreeB next = true := by simp [isFreeB, hnf]
      simp only [combineGo, if_pos rfl, if_pos hnf, List.takeWhile_cons,
        List.dropWhile_cons, hb, if_true]
      rw [ih (s + meta_data_size + next.size), sumLen_cons]
      congr 2
      omega
    · have hb : isFreeB next = false := by simp [isFreeB, hnf]
      simp only [combineGo, if_pos rfl, if_neg hnf, List.takeWhile_cons,
        List.dropWhile_cons, hb, Bool.false_eq_true, if_false, sumLen_nil,
        Nat.add_zero]
      simp only [if_true]
      rfl

/-- The coalescer computes exactly the specification-side run collapse. -/
theorem combineBlocks_eq_coalesceSpec (bs : List MetaData) :
    combineBlocks bs = coalesceSpec bs := by
  cases bs with
  | nil => simp [combineBlocks, coalesceSpec]
  | cons md rest =>
    obtain ⟨msz, mst⟩ := md
    by_cases hf : mst = META_DATA_STATUS_FREE
    · subst hf
      have hrec := combineBlocks_eq_coalesceSpec (rest.dropWhile isFreeB)
      have hbf : isFreeB ⟨msz, META_DATA_STATUS_FREE⟩ = true := by
        simp [isFreeB]
      rw [show combineBlocks (⟨msz, META_DATA_STATUS_FREE⟩ :: rest) =
          combineGo ⟨msz, META_DATA_STATUS_FREE⟩ rest from rfl]
      rw [combineGo_free_run rest msz]
      simp only [coalesceSpec, hbf, if_true, collapseRun_cons]
      rw [hrec]
    · have hrec := combineBlocks_eq_coalesceSpec rest
      have hbf : isFreeB ⟨msz, mst⟩ = false := by
        simp [isFreeB, hf]
      have hcb : combineBlocks (⟨msz, mst⟩ :: rest) =
          ⟨msz, mst⟩ :: combineBlocks rest := by
        cases rest with
        | nil => rfl
        | cons nx rest2 =>
          show combineGo ⟨msz, mst⟩ (nx :: rest2) =
            ⟨msz, mst⟩ :: combineGo nx rest2
          simp only [combineGo, if_neg hf]
      rw [hcb]
      simp only [coalesceSpec, hbf, Bool.false_eq_true, if_false]
      rw [hrec]
termination_by bs.length
decreasing_by
  · simp only [List.length_cons]
    exact Nat.lt_succ_of_le (dropWhile_length_le isFreeB _)
  · simp only [List.length_cons]
    omega

/-- C6: one call to `mm_combine_nearby_free` collapses every maximal run
of consecutive FREE blocks into a single FREE block whose size is the sum
of the run's payload sizes plus `header_size * (run length - 1)`
(`coalesceSpec`/`collapseRun` state exactly this, and pass every OCCUPIED
block through unchanged, preserving its size, status and hence its
address); the break is untouched.  In particular three consecutive free
blocks of sizes 3, 4, 5 become the single free block of size
3 + 4 + 5 + 2*9 = 30. -/
theorem C6_coalesce_maximal_runs :
    (∀ h : Heap, mm_combine_nearby_free h = ⟨coalesceSpec h.blocks, h.brk⟩) ∧
    combineBlocks [fblk 3, fblk 4, fblk 5] = [fblk 30] := by
  constructor
  · intro h
    unfold mm_combine_nearby_free
    rw [combineBlocks_eq_coalesceSpec]
  · decide

/-- List with no two adjacent free blocks. -/
def noAdjFree : List MetaData → Bool
  | [] => true
  | [_] => true
  | a :: b :: rest => (!(isFreeB a && isFreeB b)) && noAdjFree (b :: rest)

theorem noAdjFree_cons_of_head_false (a : MetaData) (l : List MetaData)
    (ha : isFreeB a = false) (hl : noAdjFree l = true) :
    noAdjFree (a :: l) = true := by
  cases l with
  | nil => rfl
  | cons x xs =>
    rw [show noAdjFree (a :: x :: xs) =
        ((!(isFreeB a && isFreeB x)) && noAdjFree (x :: xs)) from rfl]
    rw [ha]
    simp [hl]

/-- A list with no adjacent free blocks is a fixed point of the coalescer. -/
theorem combineBlocks_of_noAdjFree :
    ∀ bs, noAdjFree bs = true → combineBlocks bs = bs := by
  intro bs
  induction bs with
  | nil => intro _; rfl
  | cons a rest ih =>
    intro hna
    cases rest with
    | nil => rfl
    | cons b rest2 =>
      rw [show noAdjFree (a :: b :: rest2) =
          ((!(isFreeB a && isFreeB b)) && noAdjFree (b :: rest2)) from rfl] at hna
      rw [Bool.and_eq_true, Bool.not_eq_true'] at hna
      obtain ⟨hab, hbrest⟩ := hna
      have hcg := ih hbrest
      by_cases haf : a.status = META_DATA_STATUS_FREE
      · have hbf : isFreeB b = false := by
          have ha : isFreeB a = true := by simp [isFreeB, haf]
          simpa [ha] using hab
        have hbfp : ¬(b.status = META_DATA_STATUS_FREE) := by
          simpa [isFreeB] using hbf
        show combineGo a (b :: rest2) = a :: b :: rest2
        simp only [combineGo, if_pos haf, if_neg hbfp]
        rw [show combineGo b rest2 = combineBlocks (b :: rest2) from rfl, hcg]
      · show combineGo a (b :: rest2) = a :: b :: rest2
        simp only [combineGo, if_neg haf]
        rw [show combineGo b rest2 = combineBlocks (b :: rest2) from rfl, hcg]

/-- The coalescer's output has no two adjacent free blocks. -/
theorem noAdjFree_coalesceSpec (bs : List MetaData) :
    noAdjFree (coalesceSpec bs) = true := by
  cases bs with
  | nil =>
    have h0 : coalesceSpec [] = [] := by simp [coalesceSpec]
    rw [h0]
    rfl
  | cons md rest =>
    by_cases hf : isFreeB md = true
    · have hrec := noAdjFree_coalesceSpec (rest.dropWhile isFreeB)
      simp only [coalesceSpec, hf, if_true]
      cases hdW : rest.dropWhile isFreeB with
      | nil =>
        have h0 : coalesceSpec [] = [] := by simp [coalesceSpec]
        rw [h0]
        rfl
      | cons x xs =>
        have hx : isFreeB x = false := dropWhile_head_false isFreeB rest x xs hdW
        rw [hdW] at hrec
        have hcs : coalesceSpec (x :: xs) = x :: coalesceSpec xs := by
          simp only [coalesceSpec, hx, Bool.false_eq_true, if_false]
        rw [hcs] at hrec ⊢
        rw [show noAdjFree (collapseRun (md :: rest.takeWhile isFreeB) ::
              x :: coalesceSpec xs) =
            ((!(isFreeB (collapseRun (md :: rest.takeWhile isFreeB)) &&
                isFreeB x)) && noAdjFree (x :: coalesceSpec xs)) from rfl]
        rw [hx]
        simp [hrec]
    · have hrec := noAdjFree_coalesceSpec rest
      have hfp : isFreeB md = false := by simpa using hf
      simp only [coalesceSpec, hfp, Bool.false_eq_true, if_false]
      exact noAdjFree_cons_of_head_false md _ hfp hrec
termination_by bs.length
decreasing_by
  · simp only [List.length_cons]
    exact Nat.lt_succ_of_le (dropWhile_length_le isFreeB _)
  · simp only [List.length_cons]
    omega

/-- C7: `mm_combine_nearby_free` is idempotent — a second call leaves the
state of the first call unchanged, so `mm_print` (the spec's
`describe_blocks`) reports the identical `(index, status, size)` sequence
after the first and the second call. -/
theorem C7_coalesce_idempotent (h : Heap) :
    mm_combine_nearby_free (mm_combine_nearby_free h) =
      mm_combine_nearby_free h ∧
    mm_print (mm_combine_nearby_free (mm_combine_nearby_free h)) =
      mm_print (mm_combine_nearby_free h) := by
  have hidem : combineBlocks (combineBlocks h.blocks) =
      combineBlocks h.blocks := by
    rw [combineBlocks_eq_coalesceSpec h.blocks]
    exact combineBlocks_of_noAdjFree _ (noAdjFree_coalesceSpec h.blocks)
  constructor
  · unfold mm_combine_nearby_free
    simp only [hidem]
  · unfold mm_print mm_combine_nearby_free
    simp only [hidem]

/-! Preservation lemmas for the arena invariant. -/

/-- Every block status is one of the two legal status bytes. -/
def StatusOk (bs : List MetaData) : Prop :=
  ∀ b ∈ bs, b.status = META_DATA_STATUS_FREE ∨
    b.status = META_DATA_STATUS_OCCUPIED

/-- Well-formed engine state: the traversal from `heap_start` by
`meta_data_size + size` steps lands exactly on the break (contiguity),
the break is inside the arena, and statuses are legal. -/
def WfHeap (h : Heap) : Prop :=
  sumLen h.blocks = h.brk ∧ h.brk ≤ HEAP_SIZE ∧ StatusOk h.blocks

theorem sumLen_setStatusAt :
    ∀ (bs : List MetaData) (cur target : Nat),
      sumLen (setStatusAt bs cur target) = sumLen bs := by
  intro bs
  induction bs with
  | nil => intro cur target; rfl
  | cons b rest ih =>
    intro cur target
    by_cases hc : cur = target
    · simp only [setStatusAt, if_pos hc, sumLen_cons]
    · simp only [setStatusAt, if_neg hc, sumLen_cons, ih]

theorem statusOk_setStatusAt :
    ∀ (bs : List MetaData) (cur target : Nat), StatusOk bs →
      StatusOk (setStatusAt bs cur target) := by
  intro bs
  induction bs with
  | nil => intro cur target h; exact h
  | cons b rest ih =>
    intro cur target hok
    by_cases hc : cur = target
    · simp only [setStatusAt, if_pos hc]
      intro x hx
      rcases List.mem_cons.mp hx with hx | hx
      · subst hx; left; rfl
      · exact hok x (List.mem_cons_of_mem _ hx)
    · simp only [setStatusAt, if_neg hc]
      intro x hx
      rcases List.mem_cons.mp hx with hx | hx
      · subst hx; exact hok _ (List.mem_cons_self _ _)
      · exact ih _ _ (fun y hy => hok y (List.mem_cons_of_mem _ hy)) x hx

theorem sumLen_combineGo :
    ∀ (rest : List MetaData) (md : MetaData),
      sumLen (combineGo md rest) = meta_data_size + md.size + sumLen rest := by
  intro rest
  induction rest with
  | nil => intro md; simp [combineGo, sumLen_cons, sumLen_nil]
  | cons next rest2 ih =>
    intro md
    by_cases hmf : md.status = META_DATA_STATUS_FREE
    · by_cases hnf : next.status = META_DATA_STATUS_FREE
      · simp only [combineGo, if_pos hmf, if_pos hnf]
        rw [ih]
        simp only [sumLen_cons]
        omega
      · simp only [combineGo, if_pos hmf, if_neg hnf, sumLen_cons]
        rw [ih]
    · simp only [combineGo, if_neg hmf, sumLen_cons]
      rw [ih]

theorem sumLen_combineBlocks (bs : List MetaData) :
    sumLen (combineBlocks bs) = sumLen bs := by
  cases bs with
  | nil => rfl
  | cons md rest =>
    show sumLen (combineGo md rest) = sumLen (md :: rest)
    rw [sumLen_combineGo, sumLen_cons]

theorem statusOk_combineGo :
    ∀ (rest : List MetaData) (md : MetaData),
      (md.status = META_DATA_STATUS_FREE ∨
        md.status = META_DATA_STATUS_OCCUPIED) →
      StatusOk rest → StatusOk (combineGo md rest) := by
  intro rest
  induction rest with
  | nil =>
    intro md hmd _
    intro x hx
    rcases List.mem_cons.mp hx with hx | hx
    · subst hx; exact hmd
    · simp at hx
  | cons next rest2 ih =>
    intro md hmd hok
    have hnextok := hok next (List.mem_cons_self _ _)
    have hrest2ok : StatusOk rest2 := fun y hy => hok y (List.mem_cons_of_mem _ hy)
    by_cases hmf : md.status = META_DATA_STATUS_FREE
    · by_cases hnf : next.status = META_DATA_STATUS_FREE
      · simp only [combineGo, if_pos hmf, if_pos hnf]
        exact ih _ (by dsimp only; exact hmd) hrest2ok
      · simp only [combineGo, if_pos hmf, if_neg hnf]
        intro x hx
        rcases List.mem_cons.mp hx with hx | hx
        · subst hx; exact hmd
        · exact ih next hnextok hrest2ok x hx
    · simp only [combineGo, if_neg hmf]
      intro x hx
      rcases List.mem_cons.mp hx with hx | hx
      · subst hx; exact hmd
      · exact ih next hnextok hrest2ok x hx

theorem statusOk_combineBlocks (bs : List MetaData) (hok : StatusOk bs) :
    StatusOk (combineBlocks bs) := by
  cases bs with
  | nil => exact hok
  | cons md rest =>
    show StatusOk (combineGo md rest)
    exact statusOk_combineGo rest md (hok md (List.mem_cons_self _ _))
      (fun y hy => hok y (List.mem_cons_of_mem _ hy))

theorem mm_free_preserves_wf (hs : Nat) (h : Heap) (p : Nat)
    (hwf : WfHeap h) : WfHeap (mm_free hs h p) := by
  obtain ⟨hsum, hle, hok⟩ := hwf
  exact ⟨by rw [show (mm_free hs h p).blocks =
      setStatusAt h.blocks hs (p - meta_data_size) from rfl,
      sumLen_setStatusAt]; exact hsum,
    hle, statusOk_setStatusAt h.blocks hs (p - meta_data_size) hok⟩

theorem mm_combine_preserves_wf (h : Heap) (hwf : WfHeap h) :
    WfHeap (mm_combine_nearby_free h) := by
  obtain ⟨hsum, hle, hok⟩ := hwf
  exact ⟨by rw [show (mm_combine_nearby_free h).blocks =
      combineBlocks h.blocks from rfl, sumLen_combineBlocks]; exact hsum,
    hle, statusOk_combineBlocks h.blocks hok⟩

theorem mallocGrowNew_wf (hs size : Nat) (h : Heap)
    (hsum : sumLen h.blocks = h.brk) (_hle : h.brk ≤ HEAP_SIZE)
    (hstat : StatusOk h.blocks)
    (hsb : (mm_sbrk hs true h.brk
      ((size : Int) + (meta_data_size : Int))).2.isSome = true) :
    WfHeap (mallocGrowNew hs h size).1 := by
  rcases le_or_lt ((h.brk : Int) + ((size : Int) + (meta_data_size : Int)))
      ((HEAP_SIZE : Int)) with hfit | hnofit
  · have hgrow := mm_sbrk_grow hs h.brk ((size : Int) + (meta_data_size : Int))
      (by simp only [meta_data_size]; omega) hfit
    simp only [mallocGrowNew, hgrow, WfHeap]
    refine ⟨?_, ?_, ?_⟩
    · show sumLen (h.blocks ++ [⟨size, META_DATA_STATUS_OCCUPIED⟩]) = _
      rw [sumLen_append, sumLen_cons, sumLen_nil]
      dsimp only
      omega
    · show (((h.brk : Int) + ((size : Int) + (meta_data_size : Int))).toNat) ≤
        HEAP_SIZE
      omega
    · intro x hx
      rcases List.mem_append.mp hx with hm | hm
      · exact hstat x hm
      · simp only [List.mem_singleton] at hm
        subst hm
        right
        rfl
  · have hfail := mm_sbrk_grow_fail hs h.brk
      ((size : Int) + (meta_data_size : Int))
      (by simp only [meta_data_size]; omega) hnofit
    rw [hfail] at hsb
    simp at hsb

theorem mm_malloc_preserves_wf (hs size : Nat) (h : Heap) (hwf : WfHeap h)
    (hok : mallocSucceeds hs h size = true) :
    WfHeap (mm_malloc hs h size).1 := by
  obtain ⟨hsum, hle, hstat⟩ := hwf
  cases hscan : mallocScan size h.blocks hs with
  | found bs2 a =>
    obtain ⟨hs2, _, hmem⟩ := mallocScan_found size h.blocks hs bs2 a hscan
    simp only [mm_malloc, hscan]
    refine ⟨?_, hle, ?_⟩
    · show sumLen bs2 = h.brk
      rw [hs2, hsum]
    · intro x hx
      rcases hmem x hx with hm | hm
      · exact hstat x hm
      · exact hm
  | notFound lb =>
    cases lb with
    | none =>
      simp only [mm_malloc, hscan]
      apply mallocGrowNew_wf hs size h hsum hle hstat
      simp only [mallocSucceeds, hscan] at hok
      exact hok
    | some last =>
      obtain ⟨la, md⟩ := last
      obtain ⟨pre, hbs, hla, hnofit⟩ :=
        mallocScan_notFound_some size h.blocks hs la md hscan
      simp only [mallocSucceeds, hscan] at hok
      by_cases hocc : md.status = META_DATA_STATUS_OCCUPIED
      · rw [if_pos hocc] at hok
        simp only [mm_malloc, hscan, if_pos hocc]
        exact mallocGrowNew_wf hs size h hsum hle hstat hok
      · rw [if_neg hocc] at hok
        simp only [mm_malloc, hscan, if_neg hocc]
        have hmdmem : md ∈ h.blocks := by rw [hbs]; simp
        have hmdf : md.status = META_DATA_STATUS_FREE := by
          rcases hstat md hmdmem with hh | hh
          · exact hh
          · exact absurd hh hocc
        have hlt : md.size < size := by
          by_contra hge
          exact hnofit ⟨hmdf, by omega⟩
        rcases le_or_lt ((h.brk : Int) + ((size : Int) - (md.size : Int)))
            (HEAP_SIZE : Int) with hfit | hnofit2
        · have hgrow := mm_sbrk_grow hs h.brk ((size : Int) - (md.size : Int))
            (by omega) hfit
          rw [hgrow]
          simp only [WfHeap]
          have hsum2 : sumLen pre + meta_data_size + md.size = h.brk := by
            rw [hbs, sumLen_append, sumLen_cons, sumLen_nil] at hsum
            omega
          refine ⟨?_, ?_, ?_⟩
          · show sumLen (h.blocks.dropLast ++
              [⟨size, META_DATA_STATUS_OCCUPIED⟩]) = _
            rw [hbs, List.dropLast_concat, sumLen_append, sumLen_cons,
              sumLen_nil]
            dsimp only
            omega
          · show (((h.brk : Int) + ((size : Int) - (md.size : Int))).toNat) ≤
              HEAP_SIZE
            omega
          · intro x hx
            rcases List.mem_append.mp hx with hm | hm
            · have hm2 : x ∈ pre := by
                rw [hbs, List.dropLast_concat] at hm
                exact hm
              exact hstat x (by rw [hbs]; exact List.mem_append_left _ hm2)
            · simp only [List.mem_singleton] at hm
              subst hm
              right
              rfl
        · have hfail := mm_sbrk_grow_fail hs h.brk
            ((size : Int) - (md.size : Int)) (by omega) hnofit2
          rw [hfail] at hok
          simp at hok

theorem reachable_wf (hs : Nat) (h : Heap) (hr : Reachable hs h) :
    WfHeap h := by
  induction hr with
  | init =>
    refine ⟨rfl, by simp [HEAP_SIZE], ?_⟩
    intro b hb
    simp at hb
  | malloc hr hok ih => exact mm_malloc_preserves_wf _ _ _ ih hok
  | free hr hp ih => exact mm_free_preserves_wf _ _ _ ih
  | combine hr ih => exact mm_combine_preserves_wf _ ih

theorem sumLen_take_succ (bs : List MetaData) :
    ∀ (i : Nat) (hi : i < bs.length),
      sumLen (bs.take (i + 1)) =
        sumLen (bs.take i) + meta_data_size + (bs.get ⟨i, hi⟩).size := by
  induction bs with
  | nil => intro i hi; simp at hi
  | cons b rest ih =>
    intro i hi
    cases i with
    | zero =>
      simp only [List.take_succ_cons, List.take_zero, sumLen_cons, sumLen_nil]
      have hg : (b :: rest).get ⟨0, hi⟩ = b := rfl
      rw [hg]
      omega
    | succ i =>
      have hi2 : i < rest.length := by simpa using hi
      simp only [List.take_succ_cons, sumLen_cons, List.get_cons_succ,
        ih i hi2]
      omega

theorem sumLen_take_mono (bs : List MetaData) (i j : Nat) (hij : i ≤ j) :
    sumLen (bs.take i) ≤ sumLen (bs.take j) := by
  have h1 : bs.take j = bs.take i ++ (bs.drop i).take (j - i) := by
    conv_lhs => rw [show j = i + (j - i) from by omega]
    rw [List.take_add]
  rw [h1, sumLen_append]
  omega

/-- Blocks never overlap: block `i` ends exactly where block `i+1`
begins, so the byte ranges `[header_start, header_start + header_size +
size)` of two distinct blocks are disjoint. -/
theorem blocks_no_overlap (hs : Nat) (bs : List MetaData) (i j : Nat)
    (hi : i < bs.length) (hj : j < bs.length) (hne : i ≠ j) :
    Disjoint
      (Set.Ico (headerAddr hs bs i)
        (headerAddr hs bs i + meta_data_size + (bs.get ⟨i, hi⟩).size))
      (Set.Ico (headerAddr hs bs j)
        (headerAddr hs bs j + meta_data_size + (bs.get ⟨j, hj⟩).size)) := by
  have key : ∀ (a b : Nat) (ha : a < bs.length) (hb : b < bs.length),
      a < b →
      headerAddr hs bs a + meta_data_size + (bs.get ⟨a, ha⟩).size ≤
        headerAddr hs bs b := by
    intro a b ha hb hab
    have h1 := sumLen_take_succ bs a ha
    have h2 := sumLen_take_mono bs (a + 1) b (by omega)
    unfold headerAddr
    omega
  rcases Nat.lt_or_ge i j with hij | hij
  · rw [Set.Ico_disjoint_Ico]
    exact le_trans inf_le_left (le_trans (key i j hi hj hij) le_sup_right)
  · have hji : j < i := by omega
    rw [Set.Ico_disjoint_Ico]
    exact le_trans inf_le_right (le_trans (key j i hj hi hji) le_sup_left)

/-- C2: every state reachable from the freshly initialized arena by
successful `mm_malloc`, `mm_free` (of a live payload address) and
`mm_combine_nearby_free` operations satisfies the contiguity invariant —
traversing from `heap_start` by `meta_data_size + size` steps lands
exactly on `heap_current_break` (`sumLen blocks = brk`, no overshoot) —
and no two blocks' `[header_start, header_start + header_size + size)`
byte ranges intersect. -/
theorem C2_contiguity_invariant (hs : Nat) (h : Heap) (hr : Reachable hs h) :
    sumLen h.blocks = h.brk ∧
    ∀ i j, ∀ hi : i < h.blocks.length, ∀ hj : j < h.blocks.length, i ≠ j →
      Disjoint
        (Set.Ico (headerAddr hs h.blocks i)
          (headerAddr hs h.blocks i + meta_data_size +
            (h.blocks.get ⟨i, hi⟩).size))
        (Set.Ico (headerAddr hs h.blocks j)
          (headerAddr hs h.blocks j + meta_data_size +
            (h.blocks.get ⟨j, hj⟩).size)) :=
  ⟨(reachable_wf hs h hr).1,
   fun i j hi hj hne => blocks_no_overlap hs h.blocks i j hi hj hne⟩

/-- C2 witness: the state after a successful `mm_malloc 5` on the fresh
arena is reachable, and its traversal lands exactly on the break. -/
theorem C2_contiguity_invariant_witness :
    sumLen (mm_malloc 1 ⟨[], 0⟩ 5).1.blocks = (mm_malloc 1 ⟨[], 0⟩ 5).1.brk ∧
    sumLen (mm_malloc 1 ⟨[], 0⟩ 5).1.blocks = 14 := by
  constructor
  · exact (C2_contiguity_invariant 1 (mm_malloc 1 ⟨[], 0⟩ 5).1
      (Reachable.malloc Reachable.init (by decide))).1
  · decide
